import Mathlib

/-!
Shallow embedding of `src/ingest/export_subsample.py` from the
northstaratlas/atlas_landmarks repository, together with theorems settling
the frozen claims about it.

Matrix values are modelled as exact rationals; a loom matrix is modelled
column-major (one list of per-feature values for each cell column).  The
unseeded `np.random.shuffle` call is modelled by an explicit `shuffle`
parameter; theorems that depend on it assume only that it permutes its
input.  The filesystem is modelled by a predicate on filenames, the YAML
metadata store by an association list.
-/

namespace AtlasLandmarks

/-- values of loom file attributes: strings from the YAML metadata store or
integers computed at run time -/
inductive AttrVal where
  | str : String → AttrVal
  | nat : Nat → AttrVal
deriving DecidableEq

/-- a full atlas matrix as read from the loom file: `GeneName` row attribute
(`features`), `cellType` column attribute (`cts`), and the numeric layer
stored as one list per cell column, each of length `features.length` -/
structure FullMatrix where
  features : List String
  cts : List String
  cols : List (List ℚ)
deriving DecidableEq

/-- Python `s.startswith(p)` on character lists (kernel-reducible) -/
def strStartsWith (s p : String) : Bool := p.toList.isPrefixOf s.toList

/-- Python `p in s` substring test -/
def strContains (s p : String) : Bool :=
  (List.range (s.length + 1)).any (fun i => p.toList.isPrefixOf (s.toList.drop i))

/-- the fixed QC feature names excluded from export (`exclude_list`) -/
def exclude_list : List String :=
  ["too_low_aQual", "alignment_not_unique", "ambiguous", "no_feature", "not_aligned"]

/-- one feature mask bit, `fea_bool` in the source loop: keep the feature iff
it is not a QC name, not an ERCC spike-in, and not an underscore name -/
def featureKeep (fea : String) : Bool :=
  (!(exclude_list.contains fea)) && (!(strStartsWith fea "ERCC-")) && (!(strStartsWith fea "_"))

/-- the boolean feature mask `ind_fea` over the GeneName row attribute -/
def ind_fea (features : List String) : List Bool := features.map featureKeep

/-- numpy boolean-mask indexing `l[mask]` -/
def maskList {α : Type} (mask : List Bool) (l : List α) : List α :=
  ((mask.zip l).filter (fun p => p.1)).map (fun p => p.2)

/-- keys of a Python `Counter` built from `l`, skipping those already in
`seen`: first-appearance order, no duplicates -/
def keysAux (seen : List String) : List String → List String
  | [] => []
  | x :: xs => if x ∈ seen then keysAux seen xs else x :: keysAux (x :: seen) xs

/-- the keys of `Counter(l)` in iteration (first-appearance) order -/
def keysInOrder (l : List String) : List String := keysAux [] l

/-- index of the first occurrence of `x` in `l` (length of `l` if absent) -/
def firstIdx (l : List String) (x : String) : ℕ :=
  match l with
  | [] => 0
  | y :: ys => if y = x then 0 else firstIdx ys x + 1

/-- indices of the columns whose cellType label equals `ct`, starting the
count at `start`: models `(cts == ct).nonzero()[0]` -/
def ctIndicesFrom (cts : List String) (ct : String) (start : ℕ) : List ℕ :=
  match cts with
  | [] => []
  | x :: xs =>
    if x = ct then start :: ctIndicesFrom xs ct (start + 1)
    else ctIndicesFrom xs ct (start + 1)

/-- indices of the columns of cell type `ct` -/
def ctIndices (cts : List String) (ct : String) : List ℕ := ctIndicesFrom cts ct 0

namespace AtlasSubsampler

/-- the per-cell-type cap, class attribute `n = 20` -/
def n : ℕ := 20

end AtlasSubsampler

/-- the capped `n_cells` Counter in iteration order: each cell type paired
with `min(count, 20)` -/
def quotaList (cts : List String) : List (String × ℕ) :=
  (keysInOrder cts).map (fun ct => (ct, min (cts.count ct) AtlasSubsampler.n))

/-- `n_cells_tot = sum(n_cells.values(), 0)`, computed before capping -/
def n_cells_tot (cts : List String) : ℕ :=
  ((keysInOrder cts).map (fun ct => cts.count ct)).sum

/-- `N = sum(n_cells.values(), 0)` after capping: the assembled column count -/
def bigN (cts : List String) : ℕ := ((quotaList cts).map Prod.snd).sum

/-- the column indices selected for one cell type: shuffle the indices of
that type, take the first `ni`, and re-sort ascending
(`ind = np.sort(ind[:ni])` after `np.random.shuffle(ind)`) -/
def subsampleIndices (shuffle : List ℕ → List ℕ) (cts : List String) (ct : String) (ni : ℕ) :
    List ℕ :=
  List.insertionSort (· ≤ ·) ((shuffle (ctIndices cts ct)).take ni)

/-- one full-matrix column restricted to the masked features
(`submat = dsl[:, ind]; submat = submat[ind_fea]`) -/
def rawCol (fm : FullMatrix) (j : ℕ) : List ℚ :=
  maskList (ind_fea fm.features) (fm.cols.getD j [])

/-- counts-per-million scaling of one column
(`submat *= 1e6 / submat.sum(axis=0)`) -/
def normalizeCol (col : List ℚ) : List ℚ :=
  col.map (fun x => x * (1000000 / col.sum))

/-- the assembled subsample columns before normalization, in block order -/
def rawCols (shuffle : List ℕ → List ℕ) (fm : FullMatrix) : List (List ℚ) :=
  (quotaList fm.cts).flatMap
    (fun p => (subsampleIndices shuffle fm.cts p.1 p.2).map (fun j => rawCol fm j))

/-- the assembled subsample matrix (`matrix`), one normalized column per
selected cell, cell-type blocks in Counter iteration order -/
def assembledCols (shuffle : List ℕ → List ℕ) (fm : FullMatrix) : List (List ℚ) :=
  (quotaList fm.cts).flatMap
    (fun p => (subsampleIndices shuffle fm.cts p.1 p.2).map (fun j => normalizeCol (rawCol fm j)))

/-- the assembled cellType labels (`meta`): each block repeats its label -/
def assembledMeta (cts : List String) : List String :=
  (quotaList cts).flatMap (fun p => List.replicate p.2 p.1)

/-- the assembled synthesized cell names (`cnames`):
`[ct+'_'+str(j+1) for j in range(ni)]` per block -/
def assembledCNames (cts : List String) : List String :=
  (quotaList cts).flatMap
    (fun p => (List.range p.2).map (fun j => p.1 ++ "_" ++ toString (j + 1)))

namespace AtlasSubsampler

/-- output path for a given metaname, with the tissue suffix when present -/
def get_output_filename (tissue : Option String) (metaname : String) : String :=
  match tissue with
  | none => "../data/subsamples/" ++ metaname ++ ".loom"
  | some t => "../data/subsamples/" ++ metaname ++ "_" ++ t ++ ".loom"

/-- the per-dataset export variants: the Darmanis_2015 `nofetal` entry when
applicable, then the default entry mapping the empty name to no predicate
(`filters[''] = None`) -/
def get_custom_filters (name : String) : List (String × Option (String → Bool)) :=
  (if name = "Darmanis_2015"
    then [("nofetal", some (fun x => !(strContains x "fetal")))]
    else [])
  ++ [("", none)]

/-- the metadata key of a variant: `name+'_'+filtname` when the variant name
is non-empty, else the dataset name itself -/
def metanameOf (name filtname : String) : String :=
  if filtname = "" then name else name ++ "_" ++ filtname

/-- YAML metadata lookup, defaulting to an empty record
(`meta.get(name, dict())`) -/
def get_atlas_metadata (store : List (String × List (String × AttrVal))) (name : String) :
    List (String × AttrVal) :=
  match store.lookup name with
  | some d => d
  | none => []

/-- the map from variant name to its output filename (`fns_out`) -/
def fns_out (name : String) (tissue : Option String) : List (String × String) :=
  (get_custom_filters name).map
    (fun p => (p.1, get_output_filename tissue (metanameOf name p.1)))

/-- Python dict assignment `d[k] = v` on an association list -/
def dictSet (d : List (String × AttrVal)) (k : String) (v : AttrVal) :
    List (String × AttrVal) :=
  if d.any (fun p => p.1 == k) then d.map (fun p => if p.1 == k then (k, v) else p)
  else d ++ [(k, v)]

/-- Python dict lookup `d.get(k)` on an association list -/
def dictGet (d : List (String × AttrVal)) (k : String) : Option AttrVal := d.lookup k

/-- the file attributes written for one variant: base metadata for the
variant metaname, then `Number of cells`, then `Tissue` when present -/
def fileAttrsFor (store : List (String × List (String × AttrVal))) (name : String)
    (tissue : Option String) (filtname : String) (ncells : ℕ) : List (String × AttrVal) :=
  let base := dictSet (get_atlas_metadata store (metanameOf name filtname))
    "Number of cells" (AttrVal.nat ncells)
  match tissue with
  | none => base
  | some t => dictSet base "Tissue" (AttrVal.str t)

/-- one output loom file as passed to `loompy.create` -/
structure LoomOutput where
  fn : String
  layer : List (List ℚ)
  geneName : List String
  cellName : List String
  cellType : List String
  fileAttrs : List (String × AttrVal)
deriving DecidableEq

/-- the export of one variant: filter the assembled columns by the variant
predicate over the cellType labels (identity for the default variant), and
attach the masked feature names and the merged file attributes -/
def exportVariant (store : List (String × List (String × AttrVal))) (name : String)
    (tissue : Option String) (features : List String) (meta cnames : List String)
    (matrix : List (List ℚ)) (ncells : ℕ) (filt : String × Option (String → Bool)) :
    LoomOutput :=
  let filtered :=
    match filt.2 with
    | none => (cnames, meta, matrix)
    | some f =>
      let mask := meta.map f
      (maskList mask cnames, maskList mask meta, maskList mask matrix)
  { fn := get_output_filename tissue (metanameOf name filt.1)
  , layer := filtered.2.2
  , geneName := features
  , cellName := filtered.1
  , cellType := filtered.2.1
  , fileAttrs := fileAttrsFor store name tissue filt.1 ncells }

/-- `process_atlas`: skip when not overwriting and every variant file exists;
otherwise assemble the subsample from the full matrix and export every
variant.  The returned list holds the files written, in variant order. -/
def process_atlas (store : List (String × List (String × AttrVal)))
    (fsExists : String → Bool) (shuffle : List ℕ → List ℕ)
    (name : String) (tissue : Option String) (overwrite : Bool)
    (fm : FullMatrix) : List LoomOutput :=
  if (!overwrite) && ((fns_out name tissue).all (fun p => fsExists p.2)) then []
  else
    (get_custom_filters name).map
      (exportVariant store name tissue (maskList (ind_fea fm.features) fm.features)
        (assembledMeta fm.cts) (assembledCNames fm.cts) (assembledCols shuffle fm)
        (n_cells_tot fm.cts))

end AtlasSubsampler

/-- the `__main__` loop over discovered (dataset, tissue) pairs: each pair is
handed to `process` in order; an error raised for one pair leaves the loop
at once.  Returns the pairs for which `process` was invoked, and the
terminal error when one occurred. -/
def mainLoop (process : String × Option String → Except String Unit) :
    List (String × Option String) → List (String × Option String) × Option String
  | [] => ([], none)
  | p :: ps =>
    match process p with
    | Except.ok _ =>
      let r := mainLoop process ps
      (p :: r.1, r.2)
    | Except.error e => ([p], some e)

/-! ### Lemmas about boolean-mask indexing -/

lemma maskList_nil_left {α : Type} (l : List α) : maskList [] l = [] := rfl

lemma maskList_nil_right {α : Type} (mask : List Bool) : maskList mask ([] : List α) = [] := by
  cases mask <;> rfl

lemma maskList_cons {α : Type} (b : Bool) (bs : List Bool) (x : α) (xs : List α) :
    maskList (b :: bs) (x :: xs) = if b then x :: maskList bs xs else maskList bs xs := by
  cases b <;> simp [maskList, List.filter_cons]

/-- masking a list by the pointwise image of a predicate is filtering by it -/
lemma maskList_map_self {α : Type} (p : α → Bool) (l : List α) :
    maskList (l.map p) l = l.filter p := by
  induction l with
  | nil => rfl
  | cons x xs ih =>
    simp only [List.map_cons, maskList_cons, List.filter_cons, ih]

/-- boolean-mask indexing returns a subsequence -/
lemma maskList_sublist {α : Type} (mask : List Bool) (l : List α) :
    (maskList mask l).Sublist l := by
  induction mask generalizing l with
  | nil => simp [maskList_nil_left]
  | cons b bs ih =>
    cases l with
    | nil => simp [maskList_nil_right]
    | cons x xs =>
      rw [maskList_cons]
      cases b with
      | false => simpa using (ih xs).cons x
      | true => simpa using (ih xs).cons₂ x

/-- two parallel lists masked by the image of a predicate on the first keep
the same number of entries -/
lemma maskList_map_length {α β : Type} (p : α → Bool) (l₁ : List α) (l₂ : List β)
    (h : l₁.length = l₂.length) :
    (maskList (l₁.map p) l₂).length = (l₁.filter p).length := by
  induction l₁ generalizing l₂ with
  | nil => simp [maskList_nil_left]
  | cons x xs ih =>
    cases l₂ with
    | nil => simp at h
    | cons y ys =>
      simp only [List.length_cons, Nat.succ_inj] at h
      simp only [List.map_cons, maskList_cons, List.filter_cons]
      cases p x <;> simp [ih ys h]

/-! ### Lemmas about Counter key order -/

lemma mem_keysAux {seen l : List String} {y : String} :
    y ∈ keysAux seen l ↔ y ∈ l ∧ y ∉ seen := by
  induction l generalizing seen with
  | nil => simp [keysAux]
  | cons x xs ih =>
    by_cases hx : x ∈ seen
    · simp only [keysAux, if_pos hx, ih, List.mem_cons]
      constructor
      · rintro ⟨hy, hs⟩; exact ⟨Or.inr hy, hs⟩
      · rintro ⟨hy | hy, hs⟩
        · exact absurd hx (hy ▸ hs)
        · exact ⟨hy, hs⟩
    · simp only [keysAux, if_neg hx, List.mem_cons, ih]
      constructor
      · rintro (rfl | ⟨hy, hs⟩)
        · exact ⟨Or.inl rfl, hx⟩
        · simp only [List.mem_cons, not_or] at hs
          exact ⟨Or.inr hy, hs.2⟩
      · rintro ⟨rfl | hy, hs⟩
        · exact Or.inl rfl
        · by_cases hyx : y = x
          · exact Or.inl hyx
          · exact Or.inr ⟨hy, by simp [hs, hyx]⟩

lemma nodup_keysAux (seen l : List String) : (keysAux seen l).Nodup := by
  induction l generalizing seen with
  | nil => exact List.nodup_nil
  | cons x xs ih =>
    by_cases hx : x ∈ seen
    · simpa [keysAux, if_pos hx] using ih seen
    · simp only [keysAux, if_neg hx]
      refine List.Nodup.cons ?_ (ih (x :: seen))
      intro hmem
      exact (mem_keysAux.1 hmem).2 (List.mem_cons_self x seen)

lemma mem_keysInOrder {l : List String} {y : String} : y ∈ keysInOrder l ↔ y ∈ l := by
  simp [keysInOrder, mem_keysAux]

lemma nodup_keysInOrder (l : List String) : (keysInOrder l).Nodup := nodup_keysAux [] l

/-- summing the uncapped Counter values recovers the total column count -/
lemma n_cells_tot_eq_length (cts : List String) : n_cells_tot cts = cts.length := by
  have hperm : (keysInOrder cts).Perm cts.dedup := by
    rw [List.perm_ext_iff_of_nodup (nodup_keysInOrder cts) cts.nodup_dedup]
    intro a
    rw [mem_keysInOrder, List.mem_dedup]
  calc ((keysInOrder cts).map (fun ct => cts.count ct)).sum
      = (cts.dedup.map (fun ct => cts.count ct)).sum := (hperm.map _).sum_eq
    _ = cts.length := cts.sum_map_count_dedup_eq_length

/-! ### Counting labels in the assembled blocks -/

lemma count_flatMap_replicate_eq_zero (L : List (String × ℕ)) (ct : String)
    (h : ct ∉ L.map Prod.fst) :
    (L.flatMap (fun p => List.replicate p.2 p.1)).count ct = 0 := by
  induction L with
  | nil => rfl
  | cons a L ih =>
    simp only [List.map_cons, List.mem_cons, not_or] at h
    simp only [List.flatMap_cons, List.count_append, ih h.2, Nat.add_zero]
    rw [List.count_replicate, if_neg]
    simp only [beq_iff_eq]
    exact fun hh => h.1 hh.symm

lemma count_flatMap_replicate (L : List (String × ℕ)) (ct : String) (q : ℕ)
    (hnd : (L.map Prod.fst).Nodup) (hmem : (ct, q) ∈ L) :
    (L.flatMap (fun p => List.replicate p.2 p.1)).count ct = q := by
  induction L with
  | nil => cases hmem
  | cons a L ih =>
    simp only [List.map_cons, List.nodup_cons] at hnd
    rcases List.mem_cons.1 hmem with heq | hmem2
    · subst heq
      simp only [List.flatMap_cons, List.count_append,
        count_flatMap_replicate_eq_zero L ct hnd.1, Nat.add_zero]
      rw [List.count_replicate, if_pos]
      exact beq_self_eq_true ct
    · have hct : ct ∈ L.map Prod.fst := List.mem_map.2 ⟨(ct, q), hmem2, rfl⟩
      have hne : a.1 ≠ ct := fun hh => hnd.1 (hh ▸ hct)
      simp only [List.flatMap_cons, List.count_append, ih hnd.2 hmem2]
      rw [List.count_replicate, if_neg, Nat.zero_add]
      simp only [beq_iff_eq]
      exact hne

lemma quotaList_fst (cts : List String) : (quotaList cts).map Prod.fst = keysInOrder cts := by
  simp [quotaList, List.map_map, Function.comp_def]

lemma mem_quotaList {cts : List String} {ct : String} (h : ct ∈ cts) :
    (ct, min (cts.count ct) AtlasSubsampler.n) ∈ quotaList cts :=
  List.mem_map.2 ⟨ct, mem_keysInOrder.2 h, rfl⟩

lemma count_assembledMeta {cts : List String} {ct : String} (h : ct ∈ cts) :
    (assembledMeta cts).count ct = min (cts.count ct) AtlasSubsampler.n := by
  refine count_flatMap_replicate _ _ _ ?_ (mem_quotaList h)
  rw [quotaList_fst]
  exact nodup_keysInOrder cts

lemma length_assembledMeta (cts : List String) : (assembledMeta cts).length = bigN cts := by
  rw [assembledMeta, List.length_flatMap, bigN]
  congr 1
  apply List.map_congr_left
  intro p _
  simp [Function.comp_def]

/-! ### Lemmas about the per-cell-type index selection -/

lemma ctIndicesFrom_length (cts : List String) (ct : String) (start : ℕ) :
    (ctIndicesFrom cts ct start).length = cts.count ct := by
  induction cts generalizing start with
  | nil => rfl
  | cons x xs ih =>
    by_cases hx : x = ct <;>
      simp [ctIndicesFrom, hx, ih, List.count_cons]

lemma mem_ctIndicesFrom {cts : List String} {ct : String} {start j : ℕ}
    (h : j ∈ ctIndicesFrom cts ct start) : start ≤ j ∧ j < start + cts.length := by
  induction cts generalizing start with
  | nil => cases h
  | cons x xs ih =>
    simp only [ctIndicesFrom] at h
    by_cases hx : x = ct
    · rw [if_pos hx] at h
      rcases List.mem_cons.1 h with rfl | h2
      · simp
      · have := ih h2
        simp only [List.length_cons]
        omega
    · rw [if_neg hx] at h
      have := ih h
      simp only [List.length_cons]
      omega

lemma subsampleIndices_sorted (shuffle : List ℕ → List ℕ) (cts : List String)
    (ct : String) (ni : ℕ) :
    List.Sorted (· ≤ ·) (subsampleIndices shuffle cts ct ni) :=
  List.sorted_insertionSort _ _

lemma subsampleIndices_perm (shuffle : List ℕ → List ℕ) (cts : List String)
    (ct : String) (ni : ℕ) :
    (subsampleIndices shuffle cts ct ni).Perm ((shuffle (ctIndices cts ct)).take ni) :=
  List.perm_insertionSort _ _

lemma mem_subsampleIndices {shuffle : List ℕ → List ℕ} {cts : List String}
    {ct : String} {ni j : ℕ} (hsh : ∀ l, (shuffle l).Perm l)
    (h : j ∈ subsampleIndices shuffle cts ct ni) : j ∈ ctIndices cts ct := by
  have h1 := (subsampleIndices_perm shuffle cts ct ni).mem_iff.1 h
  exact (hsh _).mem_iff.1 (List.mem_of_mem_take h1)

lemma subsampleIndices_length (shuffle : List ℕ → List ℕ) (cts : List String)
    (ct : String) (ni : ℕ) (hsh : ∀ l, (shuffle l).Perm l)
    (hni : ni ≤ cts.count ct) :
    (subsampleIndices shuffle cts ct ni).length = ni := by
  rw [(subsampleIndices_perm shuffle cts ct ni).length_eq, List.length_take,
    (hsh _).length_eq, ctIndices, ctIndicesFrom_length]
  omega

/-! ### First-appearance order of the Counter keys -/

lemma firstIdx_cons_self (x : String) (xs : List String) : firstIdx (x :: xs) x = 0 := by
  simp [firstIdx]

lemma firstIdx_cons_ne {x y : String} (xs : List String) (h : x ≠ y) :
    firstIdx (x :: xs) y = firstIdx xs y + 1 := by
  simp [firstIdx, h]

lemma keysAux_pairwise (l seen : List String) :
    (keysAux seen l).Pairwise (fun a b => firstIdx l a < firstIdx l b) := by
  induction l generalizing seen with
  | nil => simp [keysAux]
  | cons x xs ih =>
    by_cases hx : x ∈ seen
    · simp only [keysAux, if_pos hx]
      refine List.Pairwise.imp_of_mem ?_ (ih seen)
      intro a b ha hb hab
      have hane : a ≠ x := fun h => (mem_keysAux.1 ha).2 (h ▸ hx)
      have hbne : b ≠ x := fun h => (mem_keysAux.1 hb).2 (h ▸ hx)
      rw [firstIdx_cons_ne xs hane.symm, firstIdx_cons_ne xs hbne.symm]
      omega
    · simp only [keysAux, if_neg hx]
      refine List.Pairwise.cons ?_ ?_
      · intro b hb
        have hbne : b ≠ x := fun h => (mem_keysAux.1 hb).2 (h ▸ List.mem_cons_self x seen)
        rw [firstIdx_cons_self, firstIdx_cons_ne xs hbne.symm]
        omega
      · refine List.Pairwise.imp_of_mem ?_ (ih (x :: seen))
        intro a b ha hb hab
        have hane : a ≠ x := fun h => (mem_keysAux.1 ha).2 (h ▸ List.mem_cons_self x seen)
        have hbne : b ≠ x := fun h => (mem_keysAux.1 hb).2 (h ▸ List.mem_cons_self x seen)
        rw [firstIdx_cons_ne xs hane.symm, firstIdx_cons_ne xs hbne.symm]
        omega

lemma keysInOrder_pairwise (l : List String) :
    (keysInOrder l).Pairwise (fun a b => firstIdx l a < firstIdx l b) :=
  keysAux_pairwise l []

/-! ### Association-list dictionary lemmas -/

lemma lookup_cons (k ka : String) (va : AttrVal) (d : List (String × AttrVal)) :
    List.lookup k ((ka, va) :: d) = if k == ka then some va else List.lookup k d := by
  cases h : k == ka <;> simp [List.lookup, h]

lemma lookup_append_right_of_not_any {k : String} {v : AttrVal}
    (d : List (String × AttrVal)) (h : d.any (fun p => p.1 == k) = false) :
    (d ++ [(k, v)]).lookup k = some v := by
  induction d with
  | nil => simp [List.lookup]
  | cons a d ih =>
    obtain ⟨ka, va⟩ := a
    simp only [List.any_cons, Bool.or_eq_false_iff] at h
    have hne : (k == ka) = false := by
      simp only [beq_eq_false_iff_ne] at h ⊢
      exact fun hh => h.1 hh.symm
    simp only [List.cons_append, lookup_cons, hne, Bool.false_eq_true, if_false]
    exact ih h.2

lemma lookup_map_set_of_any {k : String} {v : AttrVal}
    (d : List (String × AttrVal)) (h : d.any (fun p => p.1 == k) = true) :
    (d.map (fun p => if p.1 == k then (k, v) else p)).lookup k = some v := by
  induction d with
  | nil => simp at h
  | cons a d ih =>
    obtain ⟨ka, va⟩ := a
    simp only [List.any_cons, Bool.or_eq_true] at h
    cases ha : (ka == k) with
    | true =>
      have hka : ka = k := by simpa using ha
      subst hka
      simp [lookup_cons]
    | false =>
      have hne : (k == ka) = false := by
        simp only [beq_eq_false_iff_ne] at ha ⊢
        exact fun hh => ha hh.symm
      have h2 : (d.any fun p => p.1 == k) = true := by
        rcases h with h | h
        · rw [ha] at h
          cases h
        · exact h
      simp only [List.map_cons, ha, Bool.false_eq_true, if_false, lookup_cons, hne,
        Bool.false_eq_true, if_false]
      exact ih h2

lemma lookup_append_single_ne {k q : String} {v : AttrVal}
    (d : List (String × AttrVal)) (h : q ≠ k) :
    (d ++ [(q, v)]).lookup k = d.lookup k := by
  induction d with
  | nil =>
    have hne : (k == q) = false := by
      simp only [beq_eq_false_iff_ne]
      exact fun hh => h hh.symm
    simp [List.lookup, hne]
  | cons a d ih =>
    obtain ⟨ka, va⟩ := a
    cases hka : (k == ka) with
    | true => simp only [List.cons_append, lookup_cons, hka, if_true]
    | false =>
      simp only [List.cons_append, lookup_cons, hka, Bool.false_eq_true, if_false]
      exact ih

lemma lookup_map_set_ne {k q : String} {v : AttrVal}
    (d : List (String × AttrVal)) (h : q ≠ k) :
    (d.map (fun p => if p.1 == q then (q, v) else p)).lookup k = d.lookup k := by
  induction d with
  | nil => rfl
  | cons a d ih =>
    obtain ⟨ka, va⟩ := a
    cases ha : (ka == q) with
    | true =>
      have hkq : (k == q) = false := by
        simp only [beq_eq_false_iff_ne]
        exact fun hh => h hh.symm
      have hka : (k == ka) = false := by
        have hkaq : ka = q := by simpa using ha
        simp only [beq_eq_false_iff_ne, hkaq]
        exact fun hh => h hh.symm
      simp only [List.map_cons, ha, if_true, lookup_cons, hkq, hka,
        Bool.false_eq_true, if_false]
      exact ih
    | false =>
      simp only [List.map_cons, ha, Bool.false_eq_true, if_false]
      cases hk : (k == ka) with
      | true => simp only [lookup_cons, hk, if_true]
      | false =>
        simp only [lookup_cons, hk, Bool.false_eq_true, if_false]
        exact ih

lemma dictGet_dictSet_self (d : List (String × AttrVal)) (k : String) (v : AttrVal) :
    AtlasSubsampler.dictGet (AtlasSubsampler.dictSet d k v) k = some v := by
  rw [AtlasSubsampler.dictSet, AtlasSubsampler.dictGet]
  by_cases hany : d.any (fun p => p.1 == k) = true
  · rw [if_pos hany]
    exact lookup_map_set_of_any d hany
  · rw [if_neg hany]
    exact lookup_append_right_of_not_any d (Bool.not_eq_true _ ▸ hany)

lemma dictGet_dictSet_ne (d : List (String × AttrVal)) {k q : String} (v : AttrVal)
    (h : q ≠ k) :
    AtlasSubsampler.dictGet (AtlasSubsampler.dictSet d q v) k = AtlasSubsampler.dictGet d k := by
  rw [AtlasSubsampler.dictSet, AtlasSubsampler.dictGet, AtlasSubsampler.dictGet]
  by_cases hany : d.any (fun p => p.1 == q) = true
  · rw [if_pos hany]
    exact lookup_map_set_ne d h
  · rw [if_neg hany]
    exact lookup_append_single_ne d h

/-- whatever the variant and tissue, the written `Number of cells` attribute
is the value passed in -/
lemma fileAttrsFor_ncells (store : List (String × List (String × AttrVal)))
    (name : String) (tissue : Option String) (filtname : String) (ncells : ℕ) :
    AtlasSubsampler.dictGet
      (AtlasSubsampler.fileAttrsFor store name tissue filtname ncells)
      "Number of cells" = some (AttrVal.nat ncells) := by
  cases tissue with
  | none => exact dictGet_dictSet_self _ _ _
  | some t =>
    rw [AtlasSubsampler.fileAttrsFor]
    rw [dictGet_dictSet_ne _ _ (by decide)]
    exact dictGet_dictSet_self _ _ _

/-! ### Normalization lemmas -/

lemma sum_map_mul_const (l : List ℚ) (c : ℚ) : (l.map (fun x => x * c)).sum = l.sum * c := by
  induction l with
  | nil => simp
  | cons x xs ih => simp [ih, add_mul]

/-- a column with nonzero sum is scaled to total exactly one million -/
lemma normalizeCol_sum (col : List ℚ) (h : col.sum ≠ 0) : (normalizeCol col).sum = 1000000 := by
  rw [normalizeCol, sum_map_mul_const, mul_comm]
  exact div_mul_cancel₀ _ h

/-- the assembled matrix is the raw assembled matrix normalized column by
column: each output column depends only on its own raw column -/
lemma assembledCols_eq (shuffle : List ℕ → List ℕ) (fm : FullMatrix) :
    assembledCols shuffle fm = (rawCols shuffle fm).map normalizeCol := by
  simp [assembledCols, rawCols, List.map_flatMap, List.map_map, Function.comp_def]

/-! ### Unfolding lemmas for the export step -/

lemma exportVariant_fn (store : List (String × List (String × AttrVal))) (name : String)
    (tissue : Option String) (features meta cnames : List String) (matrix : List (List ℚ))
    (ncells : ℕ) (filt : String × Option (String → Bool)) :
    (AtlasSubsampler.exportVariant store name tissue features meta cnames matrix ncells filt).fn
      = AtlasSubsampler.get_output_filename tissue (AtlasSubsampler.metanameOf name filt.1) :=
  rfl

lemma exportVariant_geneName (store : List (String × List (String × AttrVal))) (name : String)
    (tissue : Option String) (features meta cnames : List String) (matrix : List (List ℚ))
    (ncells : ℕ) (filt : String × Option (String → Bool)) :
    (AtlasSubsampler.exportVariant store name tissue features meta cnames matrix
      ncells filt).geneName = features :=
  rfl

lemma exportVariant_fileAttrs (store : List (String × List (String × AttrVal))) (name : String)
    (tissue : Option String) (features meta cnames : List String) (matrix : List (List ℚ))
    (ncells : ℕ) (filt : String × Option (String → Bool)) :
    (AtlasSubsampler.exportVariant store name tissue features meta cnames matrix
      ncells filt).fileAttrs
      = AtlasSubsampler.fileAttrsFor store name tissue filt.1 ncells :=
  rfl

lemma exportVariant_none (store : List (String × List (String × AttrVal))) (name : String)
    (tissue : Option String) (features meta cnames : List String) (matrix : List (List ℚ))
    (ncells : ℕ) (fname : String) :
    AtlasSubsampler.exportVariant store name tissue features meta cnames matrix ncells
        (fname, none)
      = { fn := AtlasSubsampler.get_output_filename tissue (AtlasSubsampler.metanameOf name fname)
        , layer := matrix
        , geneName := features
        , cellName := cnames
        , cellType := meta
        , fileAttrs := AtlasSubsampler.fileAttrsFor store name tissue fname ncells } :=
  rfl

lemma exportVariant_some (store : List (String × List (String × AttrVal))) (name : String)
    (tissue : Option String) (features meta cnames : List String) (matrix : List (List ℚ))
    (ncells : ℕ) (fname : String) (f : String → Bool) :
    AtlasSubsampler.exportVariant store name tissue features meta cnames matrix ncells
        (fname, some f)
      = { fn := AtlasSubsampler.get_output_filename tissue (AtlasSubsampler.metanameOf name fname)
        , layer := maskList (meta.map f) matrix
        , geneName := features
        , cellName := maskList (meta.map f) cnames
        , cellType := maskList (meta.map f) meta
        , fileAttrs := AtlasSubsampler.fileAttrsFor store name tissue fname ncells } :=
  rfl

lemma metanameOf_default (name : String) : AtlasSubsampler.metanameOf name "" = name :=
  if_pos rfl

/-- when the skip condition does not hold, processing exports every variant -/
lemma process_atlas_compute (store : List (String × List (String × AttrVal)))
    (fsExists : String → Bool) (shuffle : List ℕ → List ℕ) (name : String)
    (tissue : Option String) (overwrite : Bool) (fm : FullMatrix)
    (h : ((!overwrite) && ((AtlasSubsampler.fns_out name tissue).all
      (fun p => fsExists p.2))) = false) :
    AtlasSubsampler.process_atlas store fsExists shuffle name tissue overwrite fm
      = (AtlasSubsampler.get_custom_filters name).map
          (AtlasSubsampler.exportVariant store name tissue
            (maskList (ind_fea fm.features) fm.features)
            (assembledMeta fm.cts) (assembledCNames fm.cts) (assembledCols shuffle fm)
            (n_cells_tot fm.cts)) := by
  rw [AtlasSubsampler.process_atlas, if_neg]
  rw [h]
  simp

/-- with overwrite requested the skip branch is never taken -/
lemma process_atlas_overwrite (store : List (String × List (String × AttrVal)))
    (fsExists : String → Bool) (shuffle : List ℕ → List ℕ) (name : String)
    (tissue : Option String) (fm : FullMatrix) :
    AtlasSubsampler.process_atlas store fsExists shuffle name tissue true fm
      = (AtlasSubsampler.get_custom_filters name).map
          (AtlasSubsampler.exportVariant store name tissue
            (maskList (ind_fea fm.features) fm.features)
            (assembledMeta fm.cts) (assembledCNames fm.cts) (assembledCols shuffle fm)
            (n_cells_tot fm.cts)) :=
  process_atlas_compute store fsExists shuffle name tissue true fm (by simp)

/-- every written file is the export of one of the dataset variants -/
lemma mem_process_atlas {store : List (String × List (String × AttrVal))}
    {fsExists : String → Bool} {shuffle : List ℕ → List ℕ} {name : String}
    {tissue : Option String} {overwrite : Bool} {fm : FullMatrix}
    {o : AtlasSubsampler.LoomOutput}
    (ho : o ∈ AtlasSubsampler.process_atlas store fsExists shuffle name tissue overwrite fm) :
    ∃ filt ∈ AtlasSubsampler.get_custom_filters name,
      o = AtlasSubsampler.exportVariant store name tissue
        (maskList (ind_fea fm.features) fm.features)
        (assembledMeta fm.cts) (assembledCNames fm.cts) (assembledCols shuffle fm)
        (n_cells_tot fm.cts) filt := by
  rw [AtlasSubsampler.process_atlas] at ho
  split at ho
  · exact absurd ho (List.not_mem_nil o)
  · obtain ⟨filt, hf, rfl⟩ := List.mem_map.1 ho
    exact ⟨filt, hf, rfl⟩

/-! ### Shapes of the assembled columns -/

lemma mem_assembledCols {shuffle : List ℕ → List ℕ} {fm : FullMatrix} {col : List ℚ}
    (h : col ∈ assembledCols shuffle fm) :
    ∃ ct ni j, (ct, ni) ∈ quotaList fm.cts ∧ j ∈ subsampleIndices shuffle fm.cts ct ni ∧
      col = normalizeCol (rawCol fm j) := by
  simp only [assembledCols, List.mem_flatMap, List.mem_map] at h
  obtain ⟨p, hp, j, hj, rfl⟩ := h
  exact ⟨p.1, p.2, j, by simpa using hp, hj, rfl⟩

lemma rawCol_length {fm : FullMatrix} {j : ℕ} (hj : j < fm.cols.length)
    (hlen : ∀ c ∈ fm.cols, c.length = fm.features.length) :
    (rawCol fm j).length = (fm.features.filter featureKeep).length := by
  rw [rawCol, ind_fea]
  apply maskList_map_length
  have hmem : fm.cols.getD j [] ∈ fm.cols := by
    rw [List.getD_eq_getElem _ _ hj]
    exact List.getElem_mem hj
  exact (hlen _ hmem).symm

/-- every assembled column has one entry per retained feature -/
lemma assembledCols_col_length {shuffle : List ℕ → List ℕ} {fm : FullMatrix} {col : List ℚ}
    (hsh : ∀ l, (shuffle l).Perm l)
    (hcols : fm.cols.length = fm.cts.length)
    (hlen : ∀ c ∈ fm.cols, c.length = fm.features.length)
    (hcol : col ∈ assembledCols shuffle fm) :
    col.length = (fm.features.filter featureKeep).length := by
  obtain ⟨ct, ni, j, hq, hj, rfl⟩ := mem_assembledCols hcol
  have hjct := mem_subsampleIndices hsh hj
  have hjlt : j < fm.cts.length := by
    have h2 := mem_ctIndicesFrom hjct
    simpa using h2.2
  rw [normalizeCol, List.length_map]
  exact rawCol_length (hcols ▸ hjlt) hlen

/-- every column of a written layer is one of the assembled columns -/
lemma process_layer_mem {store : List (String × List (String × AttrVal))}
    {fsExists : String → Bool} {shuffle : List ℕ → List ℕ} {name : String}
    {tissue : Option String} {overwrite : Bool} {fm : FullMatrix}
    {o : AtlasSubsampler.LoomOutput}
    (ho : o ∈ AtlasSubsampler.process_atlas store fsExists shuffle name tissue overwrite fm) :
    ∀ col ∈ o.layer, col ∈ assembledCols shuffle fm := by
  obtain ⟨filt, hf, rfl⟩ := mem_process_atlas ho
  obtain ⟨fname, fopt⟩ := filt
  cases fopt with
  | none =>
    intro col hcol
    rw [exportVariant_none] at hcol
    exact hcol
  | some f =>
    intro col hcol
    rw [exportVariant_some] at hcol
    exact (maskList_sublist _ _).subset hcol

/-- the default variant entry is present for every dataset name -/
lemma default_mem_filters (name : String) :
    ("", (none : Option (String → Bool))) ∈ AtlasSubsampler.get_custom_filters name := by
  rw [AtlasSubsampler.get_custom_filters]
  exact List.mem_append_right _ (List.mem_singleton.2 rfl)

/-- a sample full matrix used to instantiate hypothesis-bearing theorems -/
def sampleFM : FullMatrix :=
  ⟨["g1", "_qc"], ["A", "B", "A"], [[1, 5], [2, 6], [3, 7]]⟩

/-! ### Claims -/

/-- C5 counterexample: the claim that a raised error while processing one
pair leaves every subsequent pair processed is false: with two pairs and a
failure on the first, the second pair is never handed to the subsampler. -/
theorem claim_C5_counterexample :
    ¬ ((mainLoop (fun p => if p.1 = "bad" then Except.error "boom" else Except.ok ())
        [("bad", none), ("good", none)]).1 = [("bad", none), ("good", none)]) := by
  decide

/-- C5 amended: an error raised while processing one pair stops the
orchestrator loop: the pairs before the failing one are processed, the
failing pair is the last one processed, and no later pair is processed. -/
theorem claim_C5_amended (process : String × Option String → Except String Unit)
    (ps₁ ps₂ : List (String × Option String)) (p : String × Option String) (e : String)
    (h₁ : ∀ q ∈ ps₁, process q = Except.ok ())
    (h₂ : process p = Except.error e) :
    mainLoop process (ps₁ ++ p :: ps₂) = (ps₁ ++ [p], some e) := by
  induction ps₁ with
  | nil => simp [mainLoop, h₂]
  | cons q qs ih =>
    have hq : process q = Except.ok () := h₁ q (List.mem_cons_self q qs)
    simp only [List.cons_append, mainLoop, hq, List.append_eq]
    rw [ih (fun r hr => h₁ r (List.mem_cons_of_mem q hr))]

/-- C5 amended, witnessed on a concrete run of three pairs failing at the
second -/
theorem claim_C5_amended_witness :
    (∀ q ∈ [(("good1" : String), (none : Option String))],
      (fun p : String × Option String =>
        if p.1 = "bad" then Except.error "boom" else Except.ok ()) q = Except.ok ()) ∧
    ((fun p : String × Option String =>
        if p.1 = "bad" then Except.error "boom" else Except.ok ()) ("bad", none)
      = Except.error "boom") ∧
    mainLoop (fun p : String × Option String =>
        if p.1 = "bad" then Except.error "boom" else Except.ok ())
      ([("good1", none)] ++ ("bad", none) :: [("good2", none)])
      = ([("good1", none)] ++ [("bad", none)], some "boom") := by
  have hok : ∀ q ∈ [(("good1" : String), (none : Option String))],
      (fun p : String × Option String =>
        if p.1 = "bad" then Except.error "boom" else Except.ok ()) q = Except.ok () := by
    intro q hq
    rw [List.mem_singleton] at hq
    subst hq
    rfl
  refine ⟨hok, rfl, ?_⟩
  exact claim_C5_amended _ [("good1", none)] [("good2", none)] ("bad", none) "boom" hok rfl

/-- C4: with overwrite off and every variant file present, `process_atlas`
returns before looking at the full matrix and writes nothing; with overwrite
on, or at least one variant file missing, it writes one file per variant,
covering all variants of the pair. -/
theorem claim_C4 (store : List (String × List (String × AttrVal)))
    (fsExists : String → Bool) (shuffle : List ℕ → List ℕ)
    (name : String) (tissue : Option String) (overwrite : Bool) (fm fm2 : FullMatrix) :
    (overwrite = false ∧ (∀ p ∈ AtlasSubsampler.fns_out name tissue, fsExists p.2 = true) →
      AtlasSubsampler.process_atlas store fsExists shuffle name tissue overwrite fm = [] ∧
      AtlasSubsampler.process_atlas store fsExists shuffle name tissue overwrite fm
        = AtlasSubsampler.process_atlas store fsExists shuffle name tissue overwrite fm2) ∧
    ((overwrite = true ∨ ∃ p ∈ AtlasSubsampler.fns_out name tissue, fsExists p.2 = false) →
      (AtlasSubsampler.process_atlas store fsExists shuffle name tissue overwrite fm).map
          (fun o => o.fn)
        = (AtlasSubsampler.fns_out name tissue).map Prod.snd) := by
  constructor
  · rintro ⟨rfl, hall⟩
    have hcond : ((!false) && ((AtlasSubsampler.fns_out name tissue).all
        (fun p => fsExists p.2))) = true := by
      simp only [Bool.not_false, Bool.true_and, List.all_eq_true]
      exact hall
    have hskip : ∀ fmx : FullMatrix,
        AtlasSubsampler.process_atlas store fsExists shuffle name tissue false fmx = [] := by
      intro fmx
      rw [AtlasSubsampler.process_atlas, if_pos hcond]
    exact ⟨hskip fm, (hskip fm).trans (hskip fm2).symm⟩
  · intro h
    have hcond : ((!overwrite) && ((AtlasSubsampler.fns_out name tissue).all
        (fun p => fsExists p.2))) = false := by
      rcases h with rfl | ⟨p, hp, hfp⟩
      · simp
      · cases hall : (AtlasSubsampler.fns_out name tissue).all (fun p => fsExists p.2) with
        | false => simp [hall]
        | true =>
          exfalso
          rw [List.all_eq_true] at hall
          have hpt := hall p hp
          rw [hfp] at hpt
          cases hpt
    rw [process_atlas_compute store fsExists shuffle name tissue overwrite fm hcond,
      List.map_map, AtlasSubsampler.fns_out, List.map_map]
    apply List.map_congr_left
    intro filt _
    simp [Function.comp_def, exportVariant_fn]

/-- C4 witnessed at a concrete pair: a run with all files present and
overwrite off writes nothing, a run with a missing file writes both
variants -/
theorem claim_C4_witness :
    ((false = false ∧ (∀ p ∈ AtlasSubsampler.fns_out "ds" none,
        (fun _ : String => true) p.2 = true)) ∧
      AtlasSubsampler.process_atlas [] (fun _ => true) id "ds" none false sampleFM = [] ∧
      AtlasSubsampler.process_atlas [] (fun _ => true) id "ds" none false sampleFM
        = AtlasSubsampler.process_atlas [] (fun _ => true) id "ds" none false
            ⟨["g2"], ["B"], [[2]]⟩) ∧
    ((∃ p ∈ AtlasSubsampler.fns_out "ds" none, (fun _ : String => false) p.2 = false) ∧
      (AtlasSubsampler.process_atlas [] (fun _ => false) id "ds" none false sampleFM).map
          (fun o => o.fn)
        = (AtlasSubsampler.fns_out "ds" none).map Prod.snd) := by
  refine ⟨⟨⟨rfl, by decide⟩, ?_⟩, ⟨⟨("", "../data/subsamples/ds.loom"), by decide, rfl⟩, ?_⟩⟩
  · exact (claim_C4 [] (fun _ => true) id "ds" none false sampleFM
      ⟨["g2"], ["B"], [[2]]⟩).1 ⟨rfl, by decide⟩
  · exact (claim_C4 [] (fun _ => false) id "ds" none false sampleFM sampleFM).2
      (Or.inr ⟨("", "../data/subsamples/ds.loom"), by decide, rfl⟩)

/-- C9: the variant mapping always holds the default entry, so every
non-skipped run writes at least one file, and that file is the unfiltered
default export named after the dataset alone. -/
theorem claim_C9 (store : List (String × List (String × AttrVal)))
    (fsExists : String → Bool) (shuffle : List ℕ → List ℕ) (name : String)
    (tissue : Option String) (overwrite : Bool) (fm : FullMatrix)
    (h : ((!overwrite) && ((AtlasSubsampler.fns_out name tissue).all
      (fun p => fsExists p.2))) = false) :
    ("", (none : Option (String → Bool))) ∈ AtlasSubsampler.get_custom_filters name ∧
    1 ≤ (AtlasSubsampler.process_atlas store fsExists shuffle name tissue overwrite fm).length ∧
    ∃ o ∈ AtlasSubsampler.process_atlas store fsExists shuffle name tissue overwrite fm,
      o.fn = AtlasSubsampler.get_output_filename tissue name ∧
      o.cellType = assembledMeta fm.cts ∧
      o.cellName = assembledCNames fm.cts ∧
      o.layer = assembledCols shuffle fm := by
  refine ⟨default_mem_filters name, ?_, ?_⟩
  · rw [process_atlas_compute store fsExists shuffle name tissue overwrite fm h,
      List.length_map, AtlasSubsampler.get_custom_filters, List.length_append]
    simp
  · refine ⟨AtlasSubsampler.exportVariant store name tissue
      (maskList (ind_fea fm.features) fm.features) (assembledMeta fm.cts)
      (assembledCNames fm.cts) (assembledCols shuffle fm) (n_cells_tot fm.cts)
      ("", none), ?_, ?_, ?_, ?_, ?_⟩
    · rw [process_atlas_compute store fsExists shuffle name tissue overwrite fm h]
      exact List.mem_map_of_mem _ (default_mem_filters name)
    · rw [exportVariant_fn, metanameOf_default]
    · rw [exportVariant_none]
    · rw [exportVariant_none]
    · rw [exportVariant_none]

/-- C9 witnessed on a concrete overwrite run -/
theorem claim_C9_witness :
    ((!true) && ((AtlasSubsampler.fns_out "ds" none).all
      (fun p => (fun _ : String => false) p.2))) = false ∧
    (("", (none : Option (String → Bool))) ∈ AtlasSubsampler.get_custom_filters "ds" ∧
      1 ≤ (AtlasSubsampler.process_atlas [] (fun _ => false) id "ds" none true
        sampleFM).length ∧
      ∃ o ∈ AtlasSubsampler.process_atlas [] (fun _ => false) id "ds" none true sampleFM,
        o.fn = AtlasSubsampler.get_output_filename none "ds" ∧
        o.cellType = assembledMeta sampleFM.cts ∧
        o.cellName = assembledCNames sampleFM.cts ∧
        o.layer = assembledCols id sampleFM) := by
  exact ⟨rfl, claim_C9 [] (fun _ => false) id "ds" none true sampleFM rfl⟩

/-- C1: in the default-variant output of a non-skipped run, every cell type
of the full matrix gets exactly `min(count, 20)` columns, and the output
column count is the sum of those quotas over the cell types in
first-appearance order. -/
theorem claim_C1 (store : List (String × List (String × AttrVal)))
    (fsExists : String → Bool) (shuffle : List ℕ → List ℕ) (name : String)
    (tissue : Option String) (overwrite : Bool) (fm : FullMatrix) (ct : String)
    (h : ((!overwrite) && ((AtlasSubsampler.fns_out name tissue).all
      (fun p => fsExists p.2))) = false)
    (hct : ct ∈ fm.cts) :
    ∃ o ∈ AtlasSubsampler.process_atlas store fsExists shuffle name tissue overwrite fm,
      o.fn = AtlasSubsampler.get_output_filename tissue name ∧
      o.cellType.count ct = min (fm.cts.count ct) 20 ∧
      o.cellType.length
        = ((keysInOrder fm.cts).map (fun c => min (fm.cts.count c) 20)).sum := by
  refine ⟨AtlasSubsampler.exportVariant store name tissue
      (maskList (ind_fea fm.features) fm.features) (assembledMeta fm.cts)
      (assembledCNames fm.cts) (assembledCols shuffle fm) (n_cells_tot fm.cts)
      ("", none), ?_, ?_, ?_, ?_⟩
  · rw [process_atlas_compute store fsExists shuffle name tissue overwrite fm h]
    exact List.mem_map_of_mem _ (default_mem_filters name)
  · rw [exportVariant_fn, metanameOf_default]
  · rw [exportVariant_none]
    exact count_assembledMeta hct
  · rw [exportVariant_none]
    show (assembledMeta fm.cts).length = _
    rw [length_assembledMeta]
    simp only [bigN, quotaList, List.map_map, Function.comp_def, AtlasSubsampler.n]

/-- C1 witnessed on a concrete matrix with two cell types -/
theorem claim_C1_witness :
    ((!true) && ((AtlasSubsampler.fns_out "ds" none).all
      (fun p => (fun _ : String => false) p.2))) = false ∧
    "A" ∈ sampleFM.cts ∧
    ∃ o ∈ AtlasSubsampler.process_atlas [] (fun _ => false) id "ds" none true sampleFM,
      o.fn = AtlasSubsampler.get_output_filename none "ds" ∧
      o.cellType.count "A" = min (sampleFM.cts.count "A") 20 ∧
      o.cellType.length
        = ((keysInOrder sampleFM.cts).map (fun c => min (sampleFM.cts.count c) 20)).sum :=
  ⟨rfl, by decide, claim_C1 [] (fun _ => false) id "ds" none true sampleFM "A" rfl (by decide)⟩

/-- C2: normalization acts column by column on the assembled matrix, each
output column is its raw column scaled entrywise by one million over the
raw column sum, and any column whose raw values do not sum to zero sums to
exactly one million afterwards. -/
theorem claim_C2 (shuffle : List ℕ → List ℕ) (fm : FullMatrix) (raw : List ℚ)
    (hmem : raw ∈ rawCols shuffle fm) (hsum : raw.sum ≠ 0) :
    assembledCols shuffle fm = (rawCols shuffle fm).map normalizeCol ∧
    normalizeCol raw ∈ assembledCols shuffle fm ∧
    normalizeCol raw = raw.map (fun x => x / raw.sum * 1000000) ∧
    (normalizeCol raw).sum = 1000000 := by
  refine ⟨assembledCols_eq shuffle fm, ?_, ?_, normalizeCol_sum raw hsum⟩
  · rw [assembledCols_eq]
    exact List.mem_map_of_mem _ hmem
  · rw [normalizeCol]
    apply List.map_congr_left
    intro x _
    ring

/-- C2 witnessed on a concrete raw column with nonzero sum -/
theorem claim_C2_witness :
    ([(1 : ℚ)] ∈ rawCols id sampleFM) ∧
    (([(1 : ℚ)] : List ℚ).sum ≠ 0) ∧
    (assembledCols id sampleFM = (rawCols id sampleFM).map normalizeCol ∧
      normalizeCol [(1 : ℚ)] ∈ assembledCols id sampleFM ∧
      normalizeCol [(1 : ℚ)]
        = [(1 : ℚ)].map (fun x => x / ([(1 : ℚ)] : List ℚ).sum * 1000000) ∧
      (normalizeCol [(1 : ℚ)]).sum = 1000000) := by
  have hmem : [(1 : ℚ)] ∈ rawCols id sampleFM := by decide
  have hsum : (([(1 : ℚ)] : List ℚ).sum ≠ 0) := by simp
  exact ⟨hmem, hsum, claim_C2 id sampleFM [(1 : ℚ)] hmem hsum⟩

/-- C3: the feature mask keeps a name iff it is outside the fixed QC list
and starts with neither the spike-in marker nor an underscore; every
written variant carries exactly the retained names in original order as its
GeneName attribute, and every written column has one entry per retained
feature. -/
theorem claim_C3 (store : List (String × List (String × AttrVal)))
    (fsExists : String → Bool) (shuffle : List ℕ → List ℕ) (name : String)
    (tissue : Option String) (overwrite : Bool) (fm : FullMatrix) (fea : String)
    (hsh : ∀ l, (shuffle l).Perm l)
    (hcols : fm.cols.length = fm.cts.length)
    (hlen : ∀ c ∈ fm.cols, c.length = fm.features.length) :
    (featureKeep fea = true ↔
      fea ∉ (["too_low_aQual", "alignment_not_unique", "ambiguous", "no_feature",
        "not_aligned"] : List String) ∧
      strStartsWith fea "ERCC-" = false ∧ strStartsWith fea "_" = false) ∧
    ∀ o ∈ AtlasSubsampler.process_atlas store fsExists shuffle name tissue overwrite fm,
      o.geneName = fm.features.filter featureKeep ∧
      o.geneName.length = (fm.features.filter featureKeep).length ∧
      ∀ col ∈ o.layer, col.length = (fm.features.filter featureKeep).length := by
  constructor
  · simp [featureKeep, exclude_list, Bool.and_eq_true, Bool.not_eq_true', and_assoc]
  · intro o ho
    obtain ⟨filt, hf, rfl⟩ := mem_process_atlas ho
    refine ⟨?_, ?_, ?_⟩
    · rw [exportVariant_geneName, ind_fea, maskList_map_self]
    · rw [exportVariant_geneName, ind_fea, maskList_map_self]
    · intro col hcol
      exact assembledCols_col_length hsh hcols hlen (process_layer_mem ho col hcol)

/-- C3 witnessed on a concrete matrix with a masked feature -/
theorem claim_C3_witness :
    (∀ l : List ℕ, (id l).Perm l) ∧
    sampleFM.cols.length = sampleFM.cts.length ∧
    (∀ c ∈ sampleFM.cols, c.length = sampleFM.features.length) ∧
    ((featureKeep "ERCC-x" = true ↔
      "ERCC-x" ∉ (["too_low_aQual", "alignment_not_unique", "ambiguous", "no_feature",
        "not_aligned"] : List String) ∧
      strStartsWith "ERCC-x" "ERCC-" = false ∧ strStartsWith "ERCC-x" "_" = false) ∧
    ∀ o ∈ AtlasSubsampler.process_atlas [] (fun _ => false) id "ds" none true sampleFM,
      o.geneName = sampleFM.features.filter featureKeep ∧
      o.geneName.length = (sampleFM.features.filter featureKeep).length ∧
      ∀ col ∈ o.layer, col.length = (sampleFM.features.filter featureKeep).length) :=
  ⟨fun l => List.Perm.refl l, rfl, by decide,
    claim_C3 [] (fun _ => false) id "ds" none true sampleFM "ERCC-x"
      (fun l => List.Perm.refl l) rfl (by decide)⟩

/-- C6: the assembled arrays are cell-type blocks in Counter (first
appearance) order; within a block the selected column indices are the first
`quota` entries of a permutation of that type, re-sorted ascending, and
the synthesized names number the block 1-based. -/
theorem claim_C6 (shuffle : List ℕ → List ℕ) (fm : FullMatrix)
    (hsh : ∀ l, (shuffle l).Perm l) (ct : String) (ni : ℕ)
    (hq : (ct, ni) ∈ quotaList fm.cts) :
    assembledMeta fm.cts
      = (quotaList fm.cts).flatMap (fun p => List.replicate p.2 p.1) ∧
    assembledCNames fm.cts
      = (quotaList fm.cts).flatMap
          (fun p => (List.range p.2).map (fun j => p.1 ++ "_" ++ toString (j + 1))) ∧
    assembledCols shuffle fm
      = (quotaList fm.cts).flatMap
          (fun p => (subsampleIndices shuffle fm.cts p.1 p.2).map
            (fun j => normalizeCol (rawCol fm j))) ∧
    quotaList fm.cts
      = (keysInOrder fm.cts).map (fun c => (c, min (fm.cts.count c) 20)) ∧
    (keysInOrder fm.cts).Pairwise (fun a b => firstIdx fm.cts a < firstIdx fm.cts b) ∧
    List.Sorted (· ≤ ·) (subsampleIndices shuffle fm.cts ct ni) ∧
    (subsampleIndices shuffle fm.cts ct ni).Perm
      ((shuffle (ctIndices fm.cts ct)).take ni) ∧
    (∀ j ∈ subsampleIndices shuffle fm.cts ct ni, j ∈ ctIndices fm.cts ct) ∧
    (subsampleIndices shuffle fm.cts ct ni).length = ni := by
  obtain ⟨c, hc, heq⟩ := List.mem_map.1 hq
  have h1 : c = ct := congrArg Prod.fst heq
  have h2 : min (fm.cts.count c) AtlasSubsampler.n = ni := congrArg Prod.snd heq
  subst h1
  exact ⟨rfl, rfl, rfl, rfl, keysInOrder_pairwise fm.cts,
    subsampleIndices_sorted shuffle fm.cts c ni,
    subsampleIndices_perm shuffle fm.cts c ni,
    fun j hj => mem_subsampleIndices hsh hj,
    subsampleIndices_length shuffle fm.cts c ni hsh (h2 ▸ min_le_left _ _)⟩

/-- C6 witnessed on a concrete matrix with the identity permutation -/
theorem claim_C6_witness :
    (∀ l : List ℕ, (id l).Perm l) ∧
    ("A", 2) ∈ quotaList sampleFM.cts ∧
    (assembledMeta sampleFM.cts
      = (quotaList sampleFM.cts).flatMap (fun p => List.replicate p.2 p.1) ∧
    assembledCNames sampleFM.cts
      = (quotaList sampleFM.cts).flatMap
          (fun p => (List.range p.2).map (fun j => p.1 ++ "_" ++ toString (j + 1))) ∧
    assembledCols id sampleFM
      = (quotaList sampleFM.cts).flatMap
          (fun p => (subsampleIndices id sampleFM.cts p.1 p.2).map
            (fun j => normalizeCol (rawCol sampleFM j))) ∧
    quotaList sampleFM.cts
      = (keysInOrder sampleFM.cts).map (fun c => (c, min (sampleFM.cts.count c) 20)) ∧
    (keysInOrder sampleFM.cts).Pairwise
      (fun a b => firstIdx sampleFM.cts a < firstIdx sampleFM.cts b) ∧
    List.Sorted (· ≤ ·) (subsampleIndices id sampleFM.cts "A" 2) ∧
    (subsampleIndices id sampleFM.cts "A" 2).Perm
      ((id (ctIndices sampleFM.cts "A")).take 2) ∧
    (∀ j ∈ subsampleIndices id sampleFM.cts "A" 2, j ∈ ctIndices sampleFM.cts "A") ∧
    (subsampleIndices id sampleFM.cts "A" 2).length = 2) :=
  ⟨fun l => List.Perm.refl l, by decide,
    claim_C6 id sampleFM (fun l => List.Perm.refl l) "A" 2 (by decide)⟩

/-- C7: for Darmanis_2015 the custom `nofetal` variant keeps exactly the
assembled columns whose label passes the predicate, hence none containing
the substring, while the default variant of the same run is unfiltered. -/
theorem claim_C7 (store : List (String × List (String × AttrVal)))
    (fsExists : String → Bool) (shuffle : List ℕ → List ℕ)
    (tissue : Option String) (fm : FullMatrix) :
    ∃ onf odef,
      AtlasSubsampler.process_atlas store fsExists shuffle "Darmanis_2015" tissue true fm
        = [onf, odef] ∧
      onf.cellType = (assembledMeta fm.cts).filter (fun x => !(strContains x "fetal")) ∧
      (∀ x ∈ onf.cellType, strContains x "fetal" = false) ∧
      onf.cellName
        = maskList ((assembledMeta fm.cts).map (fun x => !(strContains x "fetal")))
            (assembledCNames fm.cts) ∧
      onf.layer
        = maskList ((assembledMeta fm.cts).map (fun x => !(strContains x "fetal")))
            (assembledCols shuffle fm) ∧
      odef.cellType = assembledMeta fm.cts ∧
      odef.cellName = assembledCNames fm.cts ∧
      odef.layer = assembledCols shuffle fm := by
  have hfilters : AtlasSubsampler.get_custom_filters "Darmanis_2015"
      = [("nofetal", some (fun x => !(strContains x "fetal"))), ("", none)] := by
    rw [AtlasSubsampler.get_custom_filters, if_pos rfl]
    rfl
  refine ⟨AtlasSubsampler.exportVariant store "Darmanis_2015" tissue
      (maskList (ind_fea fm.features) fm.features) (assembledMeta fm.cts)
      (assembledCNames fm.cts) (assembledCols shuffle fm) (n_cells_tot fm.cts)
      ("nofetal", some (fun x => !(strContains x "fetal"))),
    AtlasSubsampler.exportVariant store "Darmanis_2015" tissue
      (maskList (ind_fea fm.features) fm.features) (assembledMeta fm.cts)
      (assembledCNames fm.cts) (assembledCols shuffle fm) (n_cells_tot fm.cts)
      ("", none), ?_, ?_, ?_, rfl, rfl, rfl, rfl, rfl⟩
  · rw [process_atlas_overwrite, hfilters]
    rfl
  · exact maskList_map_self _ _
  · intro x hx
    have hx2 : x ∈ maskList
        ((assembledMeta fm.cts).map (fun x => !(strContains x "fetal")))
        (assembledMeta fm.cts) := hx
    rw [maskList_map_self] at hx2
    have hpass := (List.mem_filter.1 hx2).2
    simpa using hpass

/-- C8: each written variant's file attributes are the metadata record of
its composite key (empty when absent) extended with the original total cell
count and, exactly when a tissue is given, the tissue name. -/
theorem claim_C8 (store : List (String × List (String × AttrVal)))
    (fsExists : String → Bool) (shuffle : List ℕ → List ℕ) (name : String)
    (tissue : Option String) (fm : FullMatrix) :
    ((AtlasSubsampler.process_atlas store fsExists shuffle name tissue true fm).map
        (fun o => o.fileAttrs)
      = (AtlasSubsampler.get_custom_filters name).map
          (fun f => AtlasSubsampler.fileAttrsFor store name tissue f.1
            (n_cells_tot fm.cts))) ∧
    (∀ k, store.lookup k = none → AtlasSubsampler.get_atlas_metadata store k = []) ∧
    (∀ f, AtlasSubsampler.metanameOf name f
      = if f = "" then name else name ++ "_" ++ f) ∧
    n_cells_tot fm.cts = fm.cts.length ∧
    (∀ f, AtlasSubsampler.dictGet
        (AtlasSubsampler.fileAttrsFor store name tissue f (n_cells_tot fm.cts))
        "Number of cells" = some (AttrVal.nat fm.cts.length)) ∧
    (∀ f t, tissue = some t → AtlasSubsampler.dictGet
        (AtlasSubsampler.fileAttrsFor store name tissue f (n_cells_tot fm.cts))
        "Tissue" = some (AttrVal.str t)) ∧
    (tissue = none → ∀ f,
      AtlasSubsampler.fileAttrsFor store name tissue f (n_cells_tot fm.cts)
        = AtlasSubsampler.dictSet
            (AtlasSubsampler.get_atlas_metadata store (AtlasSubsampler.metanameOf name f))
            "Number of cells" (AttrVal.nat (n_cells_tot fm.cts))) := by
  refine ⟨?_, ?_, fun f => rfl, n_cells_tot_eq_length fm.cts, ?_, ?_, ?_⟩
  · rw [process_atlas_overwrite, List.map_map]
    apply List.map_congr_left
    intro filt _
    simp [Function.comp_def, exportVariant_fileAttrs]
  · intro k hk
    simp only [AtlasSubsampler.get_atlas_metadata, hk]
  · intro f
    rw [fileAttrsFor_ncells, n_cells_tot_eq_length]
  · intro f t ht
    subst ht
    exact dictGet_dictSet_self _ _ _
  · intro ht f
    subst ht
    rfl

/-- C8 witnessed on a concrete store, tissue and matrix -/
theorem claim_C8_witness :
    ((AtlasSubsampler.process_atlas [("ds", [("Organism", AttrVal.str "mouse")])]
        (fun _ => false) id "ds" (some "lung") true sampleFM).map (fun o => o.fileAttrs)
      = (AtlasSubsampler.get_custom_filters "ds").map
          (fun f => AtlasSubsampler.fileAttrsFor
            [("ds", [("Organism", AttrVal.str "mouse")])] "ds" (some "lung") f.1
            (n_cells_tot sampleFM.cts))) ∧
    AtlasSubsampler.get_atlas_metadata
      [("ds", [("Organism", AttrVal.str "mouse")])] "missing" = [] ∧
    n_cells_tot sampleFM.cts = sampleFM.cts.length ∧
    AtlasSubsampler.dictGet
      (AtlasSubsampler.fileAttrsFor [("ds", [("Organism", AttrVal.str "mouse")])] "ds"
        (some "lung") "" (n_cells_tot sampleFM.cts)) "Number of cells"
      = some (AttrVal.nat sampleFM.cts.length) ∧
    AtlasSubsampler.dictGet
      (AtlasSubsampler.fileAttrsFor [("ds", [("Organism", AttrVal.str "mouse")])] "ds"
        (some "lung") "" (n_cells_tot sampleFM.cts)) "Tissue"
      = some (AttrVal.str "lung") := by
  have h := claim_C8 [("ds", [("Organism", AttrVal.str "mouse")])] (fun _ => false) id "ds"
    (some "lung") sampleFM
  exact ⟨h.1, h.2.1 "missing" rfl, h.2.2.2.1, h.2.2.2.2.1 "",
    h.2.2.2.2.2.1 "" "lung" rfl⟩

/-- C10: the Darmanis_2015 filtering variant only drops columns, keeping
the survivors in order as a subsequence of the default output in all three
column-parallel arrays, while GeneName and the reported cell count are
identical to the default output; in particular the count stays the full
matrix column count, not the filtered one. -/
theorem claim_C10 (store : List (String × List (String × AttrVal)))
    (fsExists : String → Bool) (shuffle : List ℕ → List ℕ)
    (tissue : Option String) (fm : FullMatrix) :
    ∃ onf odef,
      AtlasSubsampler.process_atlas store fsExists shuffle "Darmanis_2015" tissue true fm
        = [onf, odef] ∧
      onf.cellType.Sublist odef.cellType ∧
      onf.cellName.Sublist odef.cellName ∧
      onf.layer.Sublist odef.layer ∧
      onf.geneName = odef.geneName ∧
      AtlasSubsampler.dictGet onf.fileAttrs "Number of cells"
        = AtlasSubsampler.dictGet odef.fileAttrs "Number of cells" ∧
      AtlasSubsampler.dictGet onf.fileAttrs "Number of cells"
        = some (AttrVal.nat fm.cts.length) := by
  have hfilters : AtlasSubsampler.get_custom_filters "Darmanis_2015"
      = [("nofetal", some (fun x => !(strContains x "fetal"))), ("", none)] := by
    rw [AtlasSubsampler.get_custom_filters, if_pos rfl]
    rfl
  refine ⟨AtlasSubsampler.exportVariant store "Darmanis_2015" tissue
      (maskList (ind_fea fm.features) fm.features) (assembledMeta fm.cts)
      (assembledCNames fm.cts) (assembledCols shuffle fm) (n_cells_tot fm.cts)
      ("nofetal", some (fun x => !(strContains x "fetal"))),
    AtlasSubsampler.exportVariant store "Darmanis_2015" tissue
      (maskList (ind_fea fm.features) fm.features) (assembledMeta fm.cts)
      (assembledCNames fm.cts) (assembledCols shuffle fm) (n_cells_tot fm.cts)
      ("", none), ?_, maskList_sublist _ _, maskList_sublist _ _, maskList_sublist _ _,
    rfl, ?_, ?_⟩
  · rw [process_atlas_overwrite, hfilters]
    rfl
  · rw [exportVariant_fileAttrs, exportVariant_fileAttrs, fileAttrsFor_ncells,
      fileAttrsFor_ncells]
  · rw [exportVariant_fileAttrs, fileAttrsFor_ncells, n_cells_tot_eq_length]

end AtlasLandmarks
